import Mathlib

/-!
Verification of the parallel job dispatcher of the model-factory notebook
(`ai_accelerator_modelInsights_streamlit_v1.ipynb`).

The notebook's reproducible core is:

  THREAD_POOL_WORKERS = 5

  def thread_function(project, start_time):
      print(f"Start training of project '{project.project_name}'...\n")
      project.analyze_and_model(target=TARGET, worker_count=-1, ...)
      project.wait_for_autopilot(check_interval=60)
      return datetime.datetime.now() - start_time

  with f.ThreadPoolExecutor(max_workers=THREAD_POOL_WORKERS) as executor:
      allFutures = {
          executor.submit(thread_function, pr, datetime.datetime.now()): pr
          for pr in project_list
      }
      for future in f.as_completed(allFutures):
          pr = allFutures[future]
          try:
              elapsed_time = future.result()
          except Exception as exc:
              print(f"Training of project '{pr.project_name}' generated an exception: {exc}")
          else:
              print(f"Training of project '{pr.project_name}' finished in {elapsed_time}")

We embed this shallowly:
* a `Project` carries its name together with the observable behaviour of its
  two remote calls: whether `analyze_and_model` raises, whether
  `wait_for_autopilot` raises, and how many abstract time units the whole
  unit of work occupies a pool worker;
* `thread_function` is the pure outcome of one unit of work, given the
  `start_time` captured at submission and the wall clock at return;
* the `ThreadPoolExecutor` is a deterministic discrete-time machine
  (`SchedState`, `poolStep`): at each tick it retires the running units whose
  remaining time is zero, admits queued units FIFO into free slots (at most
  `W` running), and decrements the remaining time of every running unit;
* `as_completed` iteration is collection over the machine's completion order
  (and, for order-independent claims, over an arbitrary permutation);
* `with` / `shutdown(wait := True)` semantics of CPython: the pool is joined
  before control leaves the block on every exit path.

Time is in abstract units; submission of all futures happens at time 0 (the
dict comprehension does not block).
-/

/-- One remote training project as the dispatcher observes it.
`analyzeExc` is the exception raised by `project.analyze_and_model` (if any),
`waitExc` the exception raised by `project.wait_for_autopilot` (if any),
`dur` the number of time units the whole unit of work occupies its pool
worker. -/
structure Project where
  projectName : String
  analyzeExc : Option String
  waitExc : Option String
  dur : Nat
deriving Repr, DecidableEq, Inhabited

/-- Outcome of `thread_function(project, start_time)`: runs
`analyze_and_model` then `wait_for_autopilot`, and returns
`now - start_time`. An exception from either call propagates out of the
unit (into `future.result()`). `now` is the wall clock when the unit
returns. -/
def thread_function (project : Project) (start_time now : Nat) : Except String Nat :=
  match project.analyzeExc with
  | some e => .error e
  | none =>
    match project.waitExc with
    | some e => .error e
    | none => .ok (now - start_time)

/-- The observable call events of one unit of work. -/
inductive Ev where
  | start (i : Nat)
  | wait (i : Nat)
deriving Repr, DecidableEq

/-- The calls `thread_function` makes for future `i`: `analyze_and_model`
(the `start` of job `i`) is always invoked; `wait_for_autopilot` (the `wait`)
is invoked only when `analyze_and_model` returned normally. -/
def unitEvents (i : Nat) (project : Project) : List Ev :=
  match project.analyzeExc with
  | some _ => [.start i]
  | none => [.start i, .wait i]

/-- The `allFutures` dict: one `executor.submit(thread_function, pr, now())`
per project of the list, in list order, keyed by the future (index). -/
def allFutures (jobs : List Project) : List (Nat × Project) :=
  (List.range jobs.length).map (fun i => (i, jobs.getD i default))

/-- Worker-count constant of the notebook. -/
def THREAD_POOL_WORKERS : Nat := 5

section Collect

/-- One line of the `as_completed` loop body: the success print or the
exception print. -/
def reportLine (name : String) (outcome : Except String Nat) : String :=
  match outcome with
  | .error exc => "Training of project '" ++ name ++ "' generated an exception: " ++ exc
  | .ok elapsed => "Training of project '" ++ name ++ "' finished in " ++ toString elapsed

/-- The `for future in f.as_completed(allFutures)` loop, over a given
completion sequence `comps` of `(future, finish time)` pairs: looks each
future up in the dict, evaluates `future.result()`, and produces the
per-future record `(future, project name, outcome)`.  All futures were
submitted at time 0, so `start_time = 0` and `now = finish time`. -/
def collectOver (jobs : List Project) (comps : List (Nat × Nat)) :
    List (Nat × String × Except String Nat) :=
  comps.filterMap (fun c =>
    match (allFutures jobs).lookup c.1 with
    | some pr => some (c.1, pr.projectName, thread_function pr 0 c.2)
    | none => none)

/-- The console output of the loop: one report line per completed future,
in completion order. -/
def loopOutput (jobs : List Project) (comps : List (Nat × Nat)) : List String :=
  (collectOver jobs comps).map (fun r => reportLine r.2.1 r.2.2)

end Collect

section Pool

/-- State of the `ThreadPoolExecutor` between ticks of the discrete clock.
`pending` holds the submitted futures not yet picked up by a worker, in FIFO
submission order; `running` the futures currently executing, each with its
remaining time; `done` the retired futures with their finish times, in
completion order; `started` records when each future was picked up. -/
structure SchedState where
  pending : List Nat
  running : List (Nat × Nat)
  done : List (Nat × Nat)
  started : List (Nat × Nat)
  time : Nat
deriving Repr, DecidableEq

/-- One tick of the pool with `W` workers, where future `i` occupies its
worker for `d i` time units: retire the running units whose remaining time
is zero, admit pending units FIFO into the free slots, then advance the
clock one unit (decrementing every running unit's remaining time). -/
def poolStep (W : Nat) (d : Nat → Nat) (s : SchedState) : SchedState :=
  let fin := s.running.filter (fun p => p.2 == 0)
  let still := s.running.filter (fun p => !(p.2 == 0))
  let newly := s.pending.take (W - still.length)
  { pending := s.pending.drop (W - still.length)
    running := (still ++ newly.map (fun i => (i, d i))).map (fun p => (p.1, p.2 - 1))
    done := s.done ++ fin.map (fun p => (p.1, s.time))
    started := s.started ++ newly.map (fun i => (i, s.time))
    time := s.time + 1 }

/-- All `n` futures are submitted (at time 0) before any completion is
observed: the pool starts with every future pending. -/
def poolInit (n : Nat) : SchedState :=
  { pending := List.range n, running := [], done := [], started := [], time := 0 }

/-- Iterate the pool `k` ticks. -/
def poolIter (W : Nat) (d : Nat → Nat) : Nat → SchedState → SchedState
  | 0, s => s
  | k + 1, s => poolIter W d k (poolStep W d s)

/-- The pool has quiesced: no pending and no running unit. -/
def poolFinal (s : SchedState) : Prop := s.pending = [] ∧ s.running = []

instance (s : SchedState) : Decidable (poolFinal s) := by
  unfold poolFinal; infer_instance

/-- Termination measure: pending futures plus remaining work. -/
def poolMeasure (d : Nat → Nat) (s : SchedState) : Nat :=
  (s.pending.map (fun i => d i + 2)).sum + (s.running.map (fun p => p.2 + 1)).sum

/-- Duration of future `i` under job list `jobs`. -/
def durOf (jobs : List Project) (i : Nat) : Nat := (jobs.getD i default).dur

/-- Enough ticks for the whole batch. -/
def poolFuel (jobs : List Project) : Nat :=
  ((List.range jobs.length).map (fun i => durOf jobs i + 2)).sum

/-- Run the pool on the batch to quiescence (the `with` block: submission,
execution, and a waiting shutdown joining all workers on exit). -/
def runPool (jobs : List Project) (W : Nat) : SchedState :=
  poolIter W (durOf jobs) (poolFuel jobs) (poolInit jobs.length)

/-- End-to-end dispatch cycle: run the pool, then collect `future.result()`
for each future in the machine's completion order. -/
def dispatch (jobs : List Project) (W : Nat) : List (Nat × String × Except String Nat) :=
  collectOver jobs (runPool jobs W).done

/-- Construction `ThreadPoolExecutor(max_workers = W)` raises `ValueError`
when `W = 0` (CPython constructor check); otherwise the pool is created. -/
def ThreadPoolExecutorNew (maxWorkers : Nat) : Except String Nat :=
  if maxWorkers = 0 then .error "max_workers must be greater than 0" else .ok maxWorkers

/-- The whole `with` block including pool construction: constructing the
pool can raise; nothing else in the block can abort the call. -/
def dispatchChecked (jobs : List Project) (W : Nat) :
    Except String (List (Nat × String × Except String Nat)) :=
  match ThreadPoolExecutorNew W with
  | .error e => .error e
  | .ok w => .ok (dispatch jobs w)

/-- The `with` block when the body of the `as_completed` loop raises after
`k` iterations (`raiseAt = some k`, `k` < number of completions): the
exception propagates out of the block, but `__exit__` still runs a waiting
shutdown, joining every worker and letting queued futures run to
completion — the pool state on leaving the block is the quiesced one on
every exit path. -/
def dispatchWith (jobs : List Project) (W : Nat) (raiseAt : Option Nat) :
    Except String (List (Nat × String × Except String Nat)) × SchedState :=
  let final := runPool jobs W
  match raiseAt with
  | some k =>
    if k < final.done.length then (.error "exception while iterating completions", final)
    else (.ok (collectOver jobs final.done), final)
  | none => (.ok (collectOver jobs final.done), final)

/-- Global call trace of a dispatch cycle: the calls of each retired unit,
grouped per unit in completion order (each unit's calls happen in program
order inside one worker). -/
def dispatchTrace (jobs : List Project) (W : Nat) : List Ev :=
  (runPool jobs W).done.flatMap (fun p => unitEvents p.1 (jobs.getD p.1 default))

end Pool

section Helpers

lemma lookup_append_nat {β : Type} (l₁ l₂ : List (Nat × β)) (i : Nat) :
    (l₁ ++ l₂).lookup i = ((l₁.lookup i).or (l₂.lookup i)) := by
  induction l₁ with
  | nil => simp [List.lookup]
  | cons a l ih =>
    by_cases h : i = a.1
    · simp [List.lookup, h]
    · simpa [List.lookup, beq_false_of_ne h] using ih

lemma lookup_map_range {β : Type} (f : Nat → β) :
    ∀ n i, i < n → ((List.range n).map (fun j => (j, f j))).lookup i = some (f i) := by
  intro n
  induction n with
  | zero => intro i h; omega
  | succ n ih =>
    intro i h
    rw [List.range_succ, List.map_append, lookup_append_nat]
    rcases Nat.lt_or_ge i n with h' | h'
    · rw [ih i h']; rfl
    · have hi : i = n := by omega
      subst hi
      have hnone : ((List.range i).map (fun j => (j, f j))).lookup i = none := by
        rw [List.lookup_eq_none_iff]
        simp
        intro a ha
        omega
      rw [hnone]
      simp [List.lookup]

lemma lookup_allFutures (jobs : List Project) (i : Nat) (h : i < jobs.length) :
    (allFutures jobs).lookup i = some (jobs.getD i default) :=
  lookup_map_range (fun j => jobs.getD j default) jobs.length i h

/-- When every completed future is a key of the dict, the loop produces one
record per completion, in completion order, against the looked-up project. -/
lemma collectOver_eq_map (jobs : List Project) (comps : List (Nat × Nat))
    (h : ∀ c ∈ comps, c.1 < jobs.length) :
    collectOver jobs comps =
      comps.map (fun c =>
        (c.1, (jobs.getD c.1 default).projectName,
          thread_function (jobs.getD c.1 default) 0 c.2)) := by
  induction comps with
  | nil => rfl
  | cons c cs ih =>
    have hc : c.1 < jobs.length := h c (by simp)
    have hcs : ∀ x ∈ cs, x.1 < jobs.length := fun x hx => h x (by simp [hx])
    simp only [collectOver, List.filterMap_cons, lookup_allFutures jobs c.1 hc]
    simpa [collectOver] using ih hcs

end Helpers

section PoolInvariants

variable {W : Nat} {d : Nat → Nat}

lemma poolIter_inv (P : SchedState → Prop)
    (hstep : ∀ s, P s → P (poolStep W d s)) :
    ∀ k s, P s → P (poolIter W d k s) := by
  intro k
  induction k with
  | zero => intro s hs; exact hs
  | succ k ih => intro s hs; exact ih _ (hstep s hs)

lemma running_le_step (s : SchedState) (h : s.running.length ≤ W) :
    (poolStep W d s).running.length ≤ W := by
  simp only [poolStep, List.length_map, List.length_append, List.length_take]
  have hf : (s.running.filter (fun p => !(p.2 == 0))).length ≤ s.running.length :=
    List.length_filter_le _ _
  omega

lemma running_le_iter (k : Nat) (s : SchedState) (h : s.running.length ≤ W) :
    (poolIter W d k s).running.length ≤ W :=
  poolIter_inv (fun s => s.running.length ≤ W) (fun _ => running_le_step _) k s h

/-- Multiset of future keys held anywhere in the pool. -/
def poolKeys (s : SchedState) : Multiset Nat :=
  (s.pending : Multiset Nat) + (s.running.map Prod.fst : List Nat) +
    (s.done.map Prod.fst : List Nat)

lemma map_fst_dec (l : List (Nat × Nat)) :
    (l.map (fun p => (p.1, p.2 - 1))).map Prod.fst = l.map Prod.fst := by
  simp [List.map_map]

lemma poolKeys_step (s : SchedState) : poolKeys (poolStep W d s) = poolKeys s := by
  set k := W - (s.running.filter (fun p => !(p.2 == 0))).length with hk
  have h1 : ((s.pending.take k : List Nat) : Multiset Nat) +
      ((s.pending.drop k : List Nat) : Multiset Nat) = (s.pending : Multiset Nat) := by
    rw [Multiset.coe_add]
    exact congrArg _ (List.take_append_drop k s.pending)
  have h2 : (((s.running.filter (fun p => p.2 == 0)).map Prod.fst : List Nat) : Multiset Nat) +
      (((s.running.filter (fun p => !(p.2 == 0))).map Prod.fst : List Nat) : Multiset Nat) =
      ((s.running.map Prod.fst : List Nat) : Multiset Nat) := by
    rw [Multiset.coe_add]
    exact Multiset.coe_eq_coe.mpr (by simpa using (List.filter_append_perm _ s.running).map Prod.fst)
  have h3 : (Prod.fst ∘ (fun p : Nat × Nat => (p.1, p.2 - 1)) ∘ fun i => (i, d i)) = id := rfl
  have h4 : (Prod.fst ∘ fun p : Nat × Nat => (p.1, p.2 - 1)) = Prod.fst := rfl
  simp only [poolKeys, poolStep, List.map_append, List.map_map, ← hk, h3, h4, List.map_id,
    ← Multiset.coe_add]
  rw [← h1, ← h2]
  abel

end PoolInvariants

section PoolTermination

variable {W : Nat} {d : Nat → Nat}

lemma sum_map_one {α : Type} (l : List α) (f : α → Nat) (h : ∀ x ∈ l, f x = 1) :
    (l.map f).sum = l.length := by
  induction l with
  | nil => rfl
  | cons a l ih =>
    simp only [List.map_cons, List.sum_cons, List.length_cons, h a (by simp)]
    rw [ih (fun x hx => h x (by simp [hx]))]
    omega

lemma sum_filter_split (l : List (Nat × Nat)) (p : Nat × Nat → Bool) (f : Nat × Nat → Nat) :
    ((l.filter p).map f).sum + ((l.filter (fun a => !(p a))).map f).sum = (l.map f).sum := by
  have h := ((List.filter_append_perm p l).map f).sum_eq
  simpa [List.map_append] using h

lemma length_filter_split (l : List (Nat × Nat)) (p : Nat × Nat → Bool) :
    (l.filter p).length + (l.filter (fun a => !(p a))).length = l.length := by
  have h := (List.filter_append_perm p l).length_eq
  simpa using h

lemma sum_map_succ_eq {α : Type} (l : List α) (f : α → Nat) :
    (l.map (fun x => f x + 1)).sum = (l.map f).sum + l.length := by
  induction l with
  | nil => rfl
  | cons a l ih => simp only [List.map_cons, List.sum_cons, List.length_cons]; omega

lemma poolMeasure_step (s : SchedState) (hW : 1 ≤ W) (hnf : ¬ poolFinal s) :
    poolMeasure d (poolStep W d s) < poolMeasure d s := by
  set fin := s.running.filter (fun p => p.2 == 0) with hfin
  set still := s.running.filter (fun p => !(p.2 == 0)) with hstill
  set k := W - still.length with hk
  set newly := s.pending.take k with hnew
  -- the new measure, split into its three parts
  have e1 : ((fun p : Nat × Nat => p.2 + 1) ∘ fun p : Nat × Nat => (p.1, p.2 - 1)) =
      fun p : Nat × Nat => (p.2 - 1) + 1 := rfl
  have e2 : ((fun p : Nat × Nat => p.2 + 1) ∘ (fun p : Nat × Nat => (p.1, p.2 - 1)) ∘
      fun i => (i, d i)) = fun i => (d i - 1) + 1 := rfl
  have hsplit : poolMeasure d (poolStep W d s) =
      ((s.pending.drop k).map (fun i => d i + 2)).sum +
      ((still.map (fun p => (p.2 - 1) + 1)).sum +
       (newly.map (fun i => (d i - 1) + 1)).sum) := by
    simp only [poolMeasure, poolStep, List.map_append, List.map_map, List.sum_append,
      ← hfin, ← hstill, ← hk, ← hnew, e1, e2]
  -- pending splits as the admitted part plus the remainder
  have hpend : (newly.map (fun i => d i + 2)).sum +
      ((s.pending.drop k).map (fun i => d i + 2)).sum =
      (s.pending.map (fun i => d i + 2)).sum := by
    have h := congrArg (fun l => (l.map (fun i => d i + 2)).sum) (List.take_append_drop k s.pending)
    simp only [List.map_append, List.sum_append, ← hnew] at h
    exact h
  -- running splits as retired plus still-running
  have hrun : (fin.map (fun p => p.2 + 1)).sum + (still.map (fun p => p.2 + 1)).sum =
      (s.running.map (fun p => p.2 + 1)).sum := sum_filter_split _ _ _
  have hfin1 : (fin.map (fun p => p.2 + 1)).sum = fin.length :=
    sum_map_one _ _ (by intro x hx; have := List.of_mem_filter hx; simp_all)
  -- still-running units all have at least one unit of work left
  have hcongr : (still.map (fun p => (p.2 - 1) + 1)).sum = (still.map (fun p => p.2)).sum := by
    refine congrArg List.sum (List.map_congr_left ?_)
    intro x hx
    have := List.of_mem_filter hx
    simp only [Bool.not_eq_true', beq_eq_false_iff_ne] at this
    omega
  have hstillsum : (still.map (fun p => p.2 + 1)).sum =
      (still.map (fun p => p.2)).sum + still.length := sum_map_succ_eq _ _
  -- admitted units cost at most their pending weight minus one
  have hnewle : (newly.map (fun i => (d i - 1) + 1)).sum + newly.length ≤
      (newly.map (fun i => d i + 2)).sum := by
    have h1 : (newly.map (fun i => (d i - 1) + 1)).sum ≤ (newly.map (fun i => d i + 1)).sum :=
      List.sum_le_sum (by intro x _; omega)
    have h2 : (newly.map (fun i => (d i + 1) + 1)).sum =
        (newly.map (fun i => d i + 1)).sum + newly.length := sum_map_succ_eq _ _
    have h3 : (newly.map (fun i => (d i + 1) + 1)).sum = (newly.map (fun i => d i + 2)).sum := rfl
    omega
  -- some unit retires, keeps running, or is admitted
  have hprog : 1 ≤ fin.length + still.length + newly.length := by
    by_cases hr : s.running = []
    · have hp : s.pending ≠ [] := fun hp => hnf ⟨hp, hr⟩
      have hfin0 : fin = [] := by simp [hfin, hr]
      have hstill0 : still = [] := by simp [hstill, hr]
      have hlen : newly.length = min k s.pending.length := by
        simp [hnew]
      have hkpos : 1 ≤ k := by
        rw [hk, hstill0]
        simpa using hW
      have hplen : 1 ≤ s.pending.length := List.length_pos.mpr hp
      omega
    · have hlen : fin.length + still.length = s.running.length :=
        length_filter_split s.running _
      have : 1 ≤ s.running.length := List.length_pos.mpr hr
      omega
  have hμ : poolMeasure d s = (s.pending.map (fun i => d i + 2)).sum +
      (s.running.map (fun p => p.2 + 1)).sum := rfl
  omega

lemma poolStep_final (s : SchedState) (h : poolFinal s) : poolFinal (poolStep W d s) := by
  obtain ⟨hp, hr⟩ := h
  simp [poolFinal, poolStep, hp, hr]

lemma poolIter_final (k : Nat) (s : SchedState) (h : poolFinal s) :
    poolFinal (poolIter W d k s) :=
  poolIter_inv poolFinal (fun _ => poolStep_final _) k s h

lemma measure_zero_final (s : SchedState) (h : poolMeasure d s = 0) : poolFinal s := by
  constructor
  · cases hp : s.pending with
    | nil => rfl
    | cons a l =>
      exfalso
      have : poolMeasure d s ≥ d a + 2 := by
        simp [poolMeasure, hp]
        omega
      omega
  · cases hr : s.running with
    | nil => rfl
    | cons a l =>
      exfalso
      have : poolMeasure d s ≥ a.2 + 1 := by
        simp [poolMeasure, hr]
        omega
      omega

lemma poolIter_reaches_final (hW : 1 ≤ W) :
    ∀ fuel (s : SchedState), poolMeasure d s ≤ fuel → poolFinal (poolIter W d fuel s) := by
  intro fuel
  induction fuel with
  | zero =>
    intro s hs
    exact @measure_zero_final d s (by omega)
  | succ fuel ih =>
    intro s hs
    by_cases hf : poolFinal s
    · exact poolIter_final fuel (poolStep W d s) (poolStep_final s hf)
    · have := @poolMeasure_step W d s hW hf
      exact ih (poolStep W d s) (by omega)

end PoolTermination

section RunPool

lemma runPool_final (jobs : List Project) (W : Nat) (hW : 1 ≤ W) :
    poolFinal (runPool jobs W) := by
  apply poolIter_reaches_final hW
  simp [poolMeasure, poolInit, poolFuel]

lemma poolKeys_iter (W : Nat) (d : Nat → Nat) (k : Nat) (s : SchedState) :
    poolKeys (poolIter W d k s) = poolKeys s := by
  induction k generalizing s with
  | zero => rfl
  | succ k ih => rw [poolIter, ih, poolKeys_step]

lemma poolKeys_runPool (jobs : List Project) (W : Nat) :
    poolKeys (runPool jobs W) = (List.range jobs.length : List Nat) := by
  rw [runPool, poolKeys_iter]
  simp [poolKeys, poolInit]

/-- Every submitted future is retired exactly once: the completion keys are
a permutation of the submitted keys. -/
lemma done_keys_perm (jobs : List Project) (W : Nat) (hW : 1 ≤ W) :
    ((runPool jobs W).done.map Prod.fst).Perm (List.range jobs.length) := by
  have hfin := runPool_final jobs W hW
  have hkeys := poolKeys_runPool jobs W
  rw [poolKeys, hfin.1, hfin.2] at hkeys
  simpa using Multiset.coe_eq_coe.mp (by simpa using hkeys)

/-- Multiset of future keys either already picked up or still pending. -/
def startedKeys (s : SchedState) : Multiset Nat :=
  (s.started.map Prod.fst : List Nat) + (s.pending : Multiset Nat)

lemma startedKeys_step (W : Nat) (d : Nat → Nat) (s : SchedState) :
    startedKeys (poolStep W d s) = startedKeys s := by
  set k := W - (s.running.filter (fun p => !(p.2 == 0))).length with hk
  have h1 : ((s.pending.take k : List Nat) : Multiset Nat) +
      ((s.pending.drop k : List Nat) : Multiset Nat) = (s.pending : Multiset Nat) := by
    rw [Multiset.coe_add]
    exact congrArg _ (List.take_append_drop k s.pending)
  have h3 : (Prod.fst ∘ fun i => (i, s.time)) = fun i : Nat => i := rfl
  simp only [startedKeys, poolStep, List.map_append, List.map_map, ← hk, h3, List.map_id,
    ← Multiset.coe_add]
  rw [← h1]
  have h4 : (s.pending.take k).map (fun i : Nat => i) = s.pending.take k := List.map_id _
  rw [h4]
  abel

lemma startedKeys_iter (W : Nat) (d : Nat → Nat) (k : Nat) (s : SchedState) :
    startedKeys (poolIter W d k s) = startedKeys s := by
  induction k generalizing s with
  | zero => rfl
  | succ k ih => rw [poolIter, ih, startedKeys_step]

/-- Every submitted future is picked up by a worker exactly once. -/
lemma started_keys_perm (jobs : List Project) (W : Nat) (hW : 1 ≤ W) :
    ((runPool jobs W).started.map Prod.fst).Perm (List.range jobs.length) := by
  have hfin := runPool_final jobs W hW
  have hkeys : startedKeys (runPool jobs W) = (List.range jobs.length : List Nat) := by
    rw [runPool, startedKeys_iter]
    simp [startedKeys, poolInit]
  rw [startedKeys, hfin.1] at hkeys
  simpa using Multiset.coe_eq_coe.mp (by simpa using hkeys)

end RunPool

section Timing

/-- Clock bookkeeping of the pool, for units of positive duration: a pending
unit has its full duration ahead of it; a running unit picked up at `t`
finishes `d` units after `t`; a retired unit finished exactly `d` units
after it was picked up. -/
def timingInv (d : Nat → Nat) (s : SchedState) : Prop :=
  (∀ i ∈ s.pending, 1 ≤ d i) ∧
  (∀ p ∈ s.running, ∃ t, (p.1, t) ∈ s.started ∧ s.time + p.2 = t + d p.1) ∧
  (∀ p ∈ s.done, ∃ t, (p.1, t) ∈ s.started ∧ p.2 = t + d p.1)

lemma timingInv_step (W : Nat) (d : Nat → Nat) (s : SchedState) (h : timingInv d s) :
    timingInv d (poolStep W d s) := by
  obtain ⟨hpend, hrun, hdone⟩ := h
  have htime : (poolStep W d s).time = s.time + 1 := rfl
  refine ⟨?_, ?_, ?_⟩
  · intro i hi
    exact hpend i (List.drop_subset _ _ hi)
  · intro p hp
    simp only [poolStep, List.mem_map, List.mem_append] at hp
    obtain ⟨q, hq | hq, rfl⟩ := hp
    · have hqmem : q ∈ s.running := List.mem_of_mem_filter hq
      have hq2 : q.2 ≠ 0 := by
        have := List.of_mem_filter hq
        simpa using this
      obtain ⟨t, ht, hclock⟩ := hrun q hqmem
      refine ⟨t, ?_, ?_⟩
      · simp only [poolStep, List.mem_append]
        exact Or.inl ht
      · rw [htime]
        show s.time + 1 + (q.2 - 1) = t + d q.1
        omega
    · obtain ⟨i, hi, rfl⟩ := hq
      have hipend : i ∈ s.pending := List.take_subset _ _ hi
      have hdur : 1 ≤ d i := hpend i hipend
      refine ⟨s.time, ?_, ?_⟩
      · simp only [poolStep, List.mem_append, List.mem_map]
        exact Or.inr ⟨i, hi, rfl⟩
      · rw [htime]
        show s.time + 1 + (d i - 1) = s.time + d i
        omega
  · intro p hp
    simp only [poolStep, List.mem_append] at hp
    rcases hp with hp | hp
    · obtain ⟨t, ht, hclock⟩ := hdone p hp
      exact ⟨t, by simp only [poolStep, List.mem_append]; exact Or.inl ht, hclock⟩
    · simp only [List.mem_map] at hp
      obtain ⟨q, hq, rfl⟩ := hp
      have hqmem : q ∈ s.running := List.mem_of_mem_filter hq
      have hq2 : q.2 = 0 := by
        have := List.of_mem_filter hq
        simpa using this
      obtain ⟨t, ht, hclock⟩ := hrun q hqmem
      refine ⟨t, ?_, ?_⟩
      · simp only [poolStep, List.mem_append]
        exact Or.inl ht
      · simp only
        omega

lemma timingInv_iter (W : Nat) (d : Nat → Nat) (k : Nat) (s : SchedState)
    (h : timingInv d s) : timingInv d (poolIter W d k s) := by
  induction k generalizing s with
  | zero => exact h
  | succ k ih => exact ih _ (timingInv_step W d s h)

lemma durOf_pos (jobs : List Project) (hdur : ∀ pr ∈ jobs, 1 ≤ pr.dur) :
    ∀ i ∈ List.range jobs.length, 1 ≤ durOf jobs i := by
  intro i hi
  rw [List.mem_range] at hi
  rw [durOf, List.getD_eq_getElem _ _ hi]
  exact hdur _ (List.getElem_mem hi)

/-- At the end of the run, every retired unit finished exactly its duration
after the instant a worker picked it up. -/
lemma runPool_finish_eq (jobs : List Project) (W : Nat)
    (hdur : ∀ pr ∈ jobs, 1 ≤ pr.dur) :
    ∀ p ∈ (runPool jobs W).done,
      ∃ t, (p.1, t) ∈ (runPool jobs W).started ∧ p.2 = t + durOf jobs p.1 := by
  have hinit : timingInv (durOf jobs) (poolInit jobs.length) := by
    refine ⟨?_, ?_, ?_⟩
    · exact durOf_pos jobs hdur
    · intro p hp; simp [poolInit] at hp
    · intro p hp; simp [poolInit] at hp
  have := timingInv_iter W (durOf jobs) (poolFuel jobs) (poolInit jobs.length) hinit
  exact this.2.2

end Timing

section TraceHelpers

lemma count_flatMap {α β : Type} [BEq β] (l : List α) (f : α → List β) (a : β) :
    ((l.flatMap f).count a) = (l.map (fun x => (f x).count a)).sum := by
  induction l with
  | nil => rfl
  | cons x l ih => simp [List.flatMap_cons, List.count_append, ih]

lemma sublist_flatMap_of_mem {α β : Type} (l : List α) (f : α → List β) (x : α)
    (hx : x ∈ l) : (f x).Sublist (l.flatMap f) := by
  induction l with
  | nil => cases hx
  | cons y l ih =>
    rw [List.flatMap_cons]
    rcases List.mem_cons.mp hx with rfl | hx'
    · exact List.sublist_append_left _ _
    · exact (ih hx').trans (List.sublist_append_right _ _)

lemma sum_map_zero {α : Type} (l : List α) (f : α → Nat) (h : ∀ x ∈ l, f x = 0) :
    (l.map f).sum = 0 := by
  induction l with
  | nil => rfl
  | cons a l ih =>
    simp only [List.map_cons, List.sum_cons, h a (by simp)]
    rw [Nat.zero_add]
    exact ih (fun x hx => h x (by simp [hx]))

lemma sum_map_range_single (g : Nat → Nat) :
    ∀ n i, i < n → (∀ j, j ≠ i → g j = 0) → ((List.range n).map g).sum = g i := by
  intro n
  induction n with
  | zero => intro i hi; omega
  | succ n ih =>
    intro i hi h0
    rw [List.range_succ, List.map_append, List.sum_append]
    rcases Nat.lt_or_ge i n with h' | h'
    · rw [ih i h' h0]
      simp [h0 n (by omega : n ≠ i)]
    · have hin : i = n := by omega
      subst hin
      rw [sum_map_zero _ _ (fun x hx => h0 x (by rw [List.mem_range] at hx; omega))]
      simp

lemma count_start_unitEvents (i j : Nat) (pr : Project) :
    (unitEvents j pr).count (.start i) = if j = i then 1 else 0 := by
  cases h : pr.analyzeExc <;> by_cases hji : j = i <;>
    simp [unitEvents, h, hji, List.count_cons]

lemma count_wait_unitEvents (i j : Nat) (pr : Project) :
    (unitEvents j pr).count (.wait i) =
      if j = i then (if pr.analyzeExc = none then 1 else 0) else 0 := by
  cases h : pr.analyzeExc <;> by_cases hji : j = i <;>
    simp [unitEvents, h, hji, List.count_cons]

lemma count_start_trace (jobs : List Project) (W i : Nat) (hW : 1 ≤ W)
    (hi : i < jobs.length) :
    (dispatchTrace jobs W).count (.start i) = 1 := by
  rw [dispatchTrace, count_flatMap]
  have hperm := (done_keys_perm jobs W hW).map
    (fun j => (unitEvents j (jobs.getD j default)).count (.start i))
  have hsum := hperm.sum_eq
  have hmm : ((runPool jobs W).done.map
      (fun p => (unitEvents p.1 (jobs.getD p.1 default)).count (.start i))) =
      (((runPool jobs W).done.map Prod.fst).map
      (fun j => (unitEvents j (jobs.getD j default)).count (.start i))) := by
    rw [List.map_map]
    rfl
  rw [hmm, hsum]
  rw [sum_map_range_single _ jobs.length i hi]
  · simp [count_start_unitEvents]
  · intro j hj
    simp [count_start_unitEvents, hj]

lemma count_wait_trace (jobs : List Project) (W i : Nat) (hW : 1 ≤ W)
    (hi : i < jobs.length) :
    (dispatchTrace jobs W).count (.wait i) =
      if (jobs.getD i default).analyzeExc = none then 1 else 0 := by
  rw [dispatchTrace, count_flatMap]
  have hperm := (done_keys_perm jobs W hW).map
    (fun j => (unitEvents j (jobs.getD j default)).count (.wait i))
  have hsum := hperm.sum_eq
  have hmm : ((runPool jobs W).done.map
      (fun p => (unitEvents p.1 (jobs.getD p.1 default)).count (.wait i))) =
      (((runPool jobs W).done.map Prod.fst).map
      (fun j => (unitEvents j (jobs.getD j default)).count (.wait i))) := by
    rw [List.map_map]
    rfl
  rw [hmm, hsum]
  rw [sum_map_range_single _ jobs.length i hi]
  · simp [count_wait_unitEvents]
  · intro j hj
    simp [count_wait_unitEvents, hj]

lemma unitEvents_sublist_trace (jobs : List Project) (W i : Nat) (hW : 1 ≤ W)
    (hi : i < jobs.length) :
    (unitEvents i (jobs.getD i default)).Sublist (dispatchTrace jobs W) := by
  have hmem : i ∈ (runPool jobs W).done.map Prod.fst :=
    (done_keys_perm jobs W hW).mem_iff.mpr (List.mem_range.mpr hi)
  rw [List.mem_map] at hmem
  obtain ⟨p, hp, rfl⟩ := hmem
  exact sublist_flatMap_of_mem (runPool jobs W).done
    (fun q => unitEvents q.1 (jobs.getD q.1 default)) p hp

end TraceHelpers

section DispatchHelpers

lemma done_key_lt (jobs : List Project) (W : Nat) (hW : 1 ≤ W) :
    ∀ p ∈ (runPool jobs W).done, p.1 < jobs.length := by
  intro p hp
  have : p.1 ∈ (runPool jobs W).done.map Prod.fst := List.mem_map_of_mem _ hp
  have := (done_keys_perm jobs W hW).mem_iff.mp this
  exact List.mem_range.mp this

lemma dispatch_eq (jobs : List Project) (W : Nat) (hW : 1 ≤ W) :
    dispatch jobs W = (runPool jobs W).done.map (fun c =>
      (c.1, (jobs.getD c.1 default).projectName,
        thread_function (jobs.getD c.1 default) 0 c.2)) :=
  collectOver_eq_map jobs _ (done_key_lt jobs W hW)

lemma dispatch_keys (jobs : List Project) (W : Nat) (hW : 1 ≤ W) :
    ((dispatch jobs W).map (fun r => r.1)).Perm (List.range jobs.length) := by
  rw [dispatch_eq jobs W hW, List.map_map]
  exact done_keys_perm jobs W hW

lemma dispatch_mem_of_done (jobs : List Project) (W : Nat) (hW : 1 ≤ W)
    (p : Nat × Nat) (hp : p ∈ (runPool jobs W).done) :
    (p.1, (jobs.getD p.1 default).projectName,
      thread_function (jobs.getD p.1 default) 0 p.2) ∈ dispatch jobs W := by
  rw [dispatch_eq jobs W hW]
  exact List.mem_map_of_mem _ hp

lemma dispatch_mem_of_key (jobs : List Project) (W i : Nat) (hW : 1 ≤ W)
    (hi : i < jobs.length) :
    ∃ T, (i, T) ∈ (runPool jobs W).done ∧
      (i, (jobs.getD i default).projectName,
        thread_function (jobs.getD i default) 0 T) ∈ dispatch jobs W := by
  have : i ∈ (runPool jobs W).done.map Prod.fst :=
    (done_keys_perm jobs W hW).mem_iff.mpr (List.mem_range.mpr hi)
  rw [List.mem_map] at this
  obtain ⟨p, hp, rfl⟩ := this
  exact ⟨p.2, hp, dispatch_mem_of_done jobs W hW p hp⟩

lemma unitEvents_of_none (i : Nat) (pr : Project) (h : pr.analyzeExc = none) :
    unitEvents i pr = [Ev.start i, Ev.wait i] := by
  simp [unitEvents, h]

lemma thread_function_ok_of (pr : Project) (st now : Nat)
    (h1 : pr.analyzeExc = none) (h2 : pr.waitExc = none) :
    thread_function pr st now = Except.ok (now - st) := by
  simp [thread_function, h1, h2]

lemma thread_function_error_of (pr : Project) (st now : Nat) (e : String)
    (h : pr.analyzeExc = some e ∨ (pr.analyzeExc = none ∧ pr.waitExc = some e)) :
    thread_function pr st now = Except.error e := by
  rcases h with h | ⟨h1, h2⟩
  · simp [thread_function, h]
  · simp [thread_function, h1, h2]

/-- Concrete project: healthy unit of two time units. -/
def prA : Project := ⟨"A", none, none, 2⟩

/-- Concrete project: healthy unit of three time units. -/
def prB : Project := ⟨"B", none, none, 3⟩

/-- Concrete project whose `wait_for_autopilot` raises. -/
def prFail : Project := ⟨"F", none, some "boom", 1⟩

/-- Concrete project whose `analyze_and_model` raises. -/
def prSubmitFail : Project := ⟨"S", some "quota", none, 1⟩

end DispatchHelpers


section Claims

/-- C1: for every non-empty ordered sequence of jobs and every worker count
`W ≥ 1`, a dispatch cycle produces exactly one result per input job
(`jobs.length` results in total), with no duplicate results and no omitted
jobs, each result being either a success (elapsed duration) or a captured
error. -/
theorem C1_one_result_per_job (jobs : List Project) (W : Nat)
    (hjobs : jobs ≠ []) (hW : 1 ≤ W) :
    (dispatch jobs W).length = jobs.length ∧
    ((dispatch jobs W).map (fun r => r.1)).Perm (List.range jobs.length) ∧
    ∀ r ∈ dispatch jobs W, (∃ t, r.2.2 = Except.ok t) ∨ ∃ e, r.2.2 = Except.error e := by
  refine ⟨?_, dispatch_keys jobs W hW, ?_⟩
  · have h := (dispatch_keys jobs W hW).length_eq
    simpa using h
  · intro r _
    cases h : r.2.2 with
    | ok t => exact Or.inl ⟨t, rfl⟩
    | error e => exact Or.inr ⟨e, rfl⟩

theorem C1_witness :
    ([prA, prB] ≠ ([] : List Project) ∧ 1 ≤ 2) ∧
    ((dispatch [prA, prB] 2).length = 2 ∧
     ((dispatch [prA, prB] 2).map (fun r => r.1)).Perm (List.range 2) ∧
     ∀ r ∈ dispatch [prA, prB] 2,
       (∃ t, r.2.2 = Except.ok t) ∨ ∃ e, r.2.2 = Except.error e) :=
  ⟨⟨by decide, by decide⟩, C1_one_result_per_job [prA, prB] 2 (by decide) (by decide)⟩

/-- C2: for every job whose `start()` (`analyze_and_model`) or `wait()`
(`wait_for_autopilot`) raises, the dispatcher captures the error, records a
FAILED result associated with that specific job, and still collects one
result for every job; `dispatch` is a total function into result lists, so
no per-job exception escapes it, and the failing job removes no sibling. -/
theorem C2_failure_isolated (jobs : List Project) (W i : Nat) (e : String)
    (hW : 1 ≤ W) (hi : i < jobs.length)
    (hfail : (jobs.getD i default).analyzeExc = some e ∨
      ((jobs.getD i default).analyzeExc = none ∧ (jobs.getD i default).waitExc = some e)) :
    (i, (jobs.getD i default).projectName, Except.error e) ∈ dispatch jobs W ∧
    (∀ j, j < jobs.length → ∃ r ∈ dispatch jobs W, r.1 = j) ∧
    (dispatch jobs W).length = jobs.length := by
  refine ⟨?_, ?_, ?_⟩
  · obtain ⟨T, _, hmem⟩ := dispatch_mem_of_key jobs W i hW hi
    rwa [thread_function_error_of _ 0 T e hfail] at hmem
  · intro j hj
    obtain ⟨T, _, hmem⟩ := dispatch_mem_of_key jobs W j hW hj
    exact ⟨_, hmem, rfl⟩
  · have h := (dispatch_keys jobs W hW).length_eq
    simpa using h

theorem C2_witness :
    (1 ≤ (2 : Nat) ∧ 1 < ([prA, prFail] : List Project).length ∧
      ([prA, prFail].getD 1 default).analyzeExc = none ∧
      ([prA, prFail].getD 1 default).waitExc = some "boom") ∧
    ((1, ([prA, prFail].getD 1 default).projectName, Except.error "boom") ∈
        dispatch [prA, prFail] 2 ∧
      (∀ j, j < ([prA, prFail] : List Project).length →
        ∃ r ∈ dispatch [prA, prFail] 2, r.1 = j) ∧
      (dispatch [prA, prFail] 2).length = ([prA, prFail] : List Project).length) :=
  ⟨⟨by decide, by decide, by decide, by decide⟩,
    C2_failure_isolated [prA, prFail] 2 1 "boom" (by decide) (by decide)
      (Or.inr ⟨by decide, by decide⟩)⟩

/-- C3: during every dispatch cycle with worker count `W`, at most `W` jobs
are simultaneously in the STARTED state (picked up but not yet retired) at
any instant, and while all `W` slots are occupied with no unit retiring, no
additional job begins executing. -/
theorem C3_at_most_W_started (jobs : List Project) (W k : Nat) :
    (poolIter W (durOf jobs) k (poolInit jobs.length)).running.length ≤ W ∧
    (∀ s : SchedState, s.running.length = W →
      s.running.filter (fun p => p.2 == 0) = [] →
      (poolStep W (durOf jobs) s).started = s.started) := by
  constructor
  · exact running_le_iter k _ (by simp [poolInit])
  · intro s hfull hnone
    have hall : ∀ x ∈ s.running, ¬ (x.2 == 0) = true := List.filter_eq_nil_iff.mp hnone
    have hstill : s.running.filter (fun p => !(p.2 == 0)) = s.running :=
      List.filter_eq_self.mpr (fun a ha => by simpa using hall a ha)
    simp [poolStep, hstill, hfull]

theorem C3_witness :
    (poolIter 1 (durOf [prA, prB]) 2 (poolInit 2)).running.length ≤ 1 :=
  (C3_at_most_W_started [prA, prB] 1 2).1

/-- C4: the dispatch call returns only after every submitted unit has been
retired (success or failure) and the pool has quiesced — nothing pending,
no running worker — on every exit path, including when an exception is
raised while iterating completions (`raiseAt = some k`): the scoped pool is
joined before control leaves the block. -/
theorem C4_terminates_and_releases (jobs : List Project) (W : Nat)
    (raiseAt : Option Nat) (hW : 1 ≤ W) :
    (dispatchWith jobs W raiseAt).2.pending = [] ∧
    (dispatchWith jobs W raiseAt).2.running = [] ∧
    (((dispatchWith jobs W raiseAt).2.done.map Prod.fst).Perm (List.range jobs.length)) := by
  have hsnd : (dispatchWith jobs W raiseAt).2 = runPool jobs W := by
    cases raiseAt with
    | none => rfl
    | some k =>
      simp only [dispatchWith]
      split <;> rfl
  rw [hsnd]
  have hfin := runPool_final jobs W hW
  exact ⟨hfin.1, hfin.2, done_keys_perm jobs W hW⟩

theorem C4_witness :
    (dispatchWith [prA, prB] 1 (some 0)).2.pending = [] ∧
    (dispatchWith [prA, prB] 1 (some 0)).2.running = [] ∧
    (((dispatchWith [prA, prB] 1 (some 0)).2.done.map Prod.fst).Perm (List.range 2)) :=
  C4_terminates_and_releases [prA, prB] 1 (some 0) (by decide)


/-- C5 counterexample: the claim asserts that an empty job sequence makes
the dispatcher raise a configuration error synchronously; on the code, the
whole `with` block over an empty `project_list` completes normally and
returns zero results — no error of any kind is raised. -/
theorem C5_counterexample :
    dispatchChecked ([] : List Project) 5 = Except.ok [] :=
  rfl

/-- C5 amended: for `W = 0`, constructing the pool raises `ValueError`
synchronously, before any job's `start()` is invoked, and this aborts the
whole call; an empty job sequence, however, is not validated: the dispatch
cycle completes normally with zero results. -/
theorem C5_amended (jobs : List Project) (W : Nat) (hW : 1 ≤ W) :
    dispatchChecked jobs 0 = Except.error "max_workers must be greater than 0" ∧
    dispatchChecked ([] : List Project) W = Except.ok [] := by
  constructor
  · rfl
  · have hz : W ≠ 0 := by omega
    simp [dispatchChecked, ThreadPoolExecutorNew, hz]
    rfl

theorem C5_witness :
    (1 ≤ (3 : Nat)) ∧
    (dispatchChecked [prA] 0 = Except.error "max_workers must be greater than 0" ∧
      dispatchChecked ([] : List Project) 3 = Except.ok []) :=
  ⟨by decide, C5_amended [prA] 3 (by decide)⟩

/-- C6 counterexample: with one worker and jobs of durations 2 and 3, the
second job is picked up at time 2 and finishes at time 5; the recorded
elapsed value for it is 5 (finish minus submission time 0), not 3 (finish
minus the instant its `start()` was invoked): the recorded duration does
include the time spent queued for a worker slot, contradicting the claim. -/
theorem C6_counterexample :
    dispatch [prA, prB] 1 = [(0, "A", Except.ok 2), (1, "B", Except.ok 5)] ∧
    (runPool [prA, prB] 1).started = [(0, 0), (1, 2)] ∧
    (runPool [prA, prB] 1).done = [(0, 2), (1, 5)] ∧
    (5 : Nat) - 0 ≠ 5 - 2 :=
  ⟨rfl, rfl, rfl, by decide⟩

/-- C6 amended: the recorded wall-clock elapsed value of a successful job
is measured from the submission instant (time 0, when `start_time` is
captured by the dict comprehension) to just after `wait()` returns, so it
equals the unit's queue delay plus its service duration: for every retired
unit there is a pick-up time `t` with finish time `t + dur`, and the
dispatch result for a healthy job records `t + dur`, not `dur`. -/
theorem C6_amended (jobs : List Project) (W : Nat) (hW : 1 ≤ W)
    (hdur : ∀ pr ∈ jobs, 1 ≤ pr.dur) :
    ∀ p ∈ (runPool jobs W).done, ∃ t,
      (p.1, t) ∈ (runPool jobs W).started ∧
      p.2 - 0 = t + durOf jobs p.1 ∧
      ((jobs.getD p.1 default).analyzeExc = none →
        (jobs.getD p.1 default).waitExc = none →
        (p.1, (jobs.getD p.1 default).projectName,
          Except.ok (t + durOf jobs p.1)) ∈ dispatch jobs W) := by
  intro p hp
  obtain ⟨t, ht, hfin⟩ := runPool_finish_eq jobs W hdur p hp
  have hq : p.2 - 0 = t + durOf jobs p.1 := by omega
  refine ⟨t, ht, hq, ?_⟩
  intro h1 h2
  have hmem := dispatch_mem_of_done jobs W hW p hp
  have hok : thread_function (jobs.getD p.1 default) 0 p.2 =
      Except.ok (t + durOf jobs p.1) := by
    rw [thread_function_ok_of (jobs.getD p.1 default) 0 p.2 h1 h2, Nat.sub_zero, hfin]
  rwa [hok] at hmem

theorem C6_witness :
    (1 ≤ (1 : Nat)) ∧ (∀ pr ∈ [prA, prB], 1 ≤ pr.dur) ∧
    ((1, 5) ∈ (runPool [prA, prB] 1).done) ∧
    (∃ t, ((1, 5) : Nat × Nat).1 = 1 ∧ (1, t) ∈ (runPool [prA, prB] 1).started ∧
      (5 : Nat) - 0 = t + durOf [prA, prB] 1) := by
  refine ⟨by decide, by decide, by decide, ?_⟩
  obtain ⟨t, ht, heq, _⟩ :=
    C6_amended [prA, prB] 1 (by decide) (by decide) (1, 5) (by decide)
  exact ⟨t, rfl, ht, heq⟩

/-- C7: results are collected in completion order, and every result is
reported against its correct originating job for every possible completion
sequence, because the loop looks each completed future up in the
`allFutures` mapping rather than using a positional index: collecting over
any completion sequence yields exactly that sequence's futures, in that
order, each paired with its own project's name and its own outcome. -/
theorem C7_completion_order_correct_mapping (jobs : List Project)
    (comps : List (Nat × Nat)) (h : ∀ c ∈ comps, c.1 < jobs.length) :
    collectOver jobs comps = comps.map (fun c =>
      (c.1, (jobs.getD c.1 default).projectName,
        thread_function (jobs.getD c.1 default) 0 c.2)) :=
  collectOver_eq_map jobs comps h

theorem C7_witness :
    (∀ c ∈ [((1 : Nat), (7 : Nat)), (0, 9)], c.1 < ([prA, prB] : List Project).length) ∧
    collectOver [prA, prB] [(1, 7), (0, 9)] = [(1, "B", Except.ok 7), (0, "A", Except.ok 9)] := by
  constructor
  · decide
  · rw [C7_completion_order_correct_mapping [prA, prB] [(1, 7), (0, 9)] (by decide)]
    rfl


/-- C8 counterexample: for a job whose `analyze_and_model` (`start()`)
raises, `thread_function` never reaches `wait_for_autopilot`: the call
trace of dispatching that job holds one `start` event and no `wait` event,
yet the job is recorded as FAILED — the claim that `wait()` is invoked
exactly once for every job is false. -/
theorem C8_counterexample :
    dispatchTrace [prSubmitFail] 1 = [Ev.start 0] ∧
    dispatch [prSubmitFail] 1 = [(0, "S", Except.error "quota")] ∧
    (dispatchTrace [prSubmitFail] 1).count (Ev.wait 0) ≠ 1 :=
  ⟨rfl, rfl, by decide⟩

/-- C8 amended: for every job of the dispatched sequence, the dispatcher
invokes that job's `start()` exactly once (so a failed job is never
resubmitted or retried); `wait()` is invoked exactly once — after `start()`
inside the same unit of work — when `start()` returned normally, and zero
times when `start()` raised. -/
theorem C8_start_wait_once (jobs : List Project) (W i : Nat)
    (hW : 1 ≤ W) (hi : i < jobs.length) :
    (dispatchTrace jobs W).count (Ev.start i) = 1 ∧
    ((jobs.getD i default).analyzeExc = none →
      (dispatchTrace jobs W).count (Ev.wait i) = 1 ∧
      [Ev.start i, Ev.wait i].Sublist (dispatchTrace jobs W)) ∧
    ((jobs.getD i default).analyzeExc ≠ none →
      (dispatchTrace jobs W).count (Ev.wait i) = 0) := by
  refine ⟨count_start_trace jobs W i hW hi, ?_, ?_⟩
  · intro h
    constructor
    · rw [count_wait_trace jobs W i hW hi, if_pos h]
    · have hsub := unitEvents_sublist_trace jobs W i hW hi
      rwa [unitEvents_of_none i (jobs.getD i default) h] at hsub
  · intro h
    rw [count_wait_trace jobs W i hW hi, if_neg h]

theorem C8_witness :
    (1 ≤ (1 : Nat) ∧ 0 < ([prA] : List Project).length) ∧
    ((dispatchTrace [prA] 1).count (Ev.start 0) = 1 ∧
     (([prA].getD 0 default).analyzeExc = none →
       (dispatchTrace [prA] 1).count (Ev.wait 0) = 1 ∧
       [Ev.start 0, Ev.wait 0].Sublist (dispatchTrace [prA] 1)) ∧
     (([prA].getD 0 default).analyzeExc ≠ none →
       (dispatchTrace [prA] 1).count (Ev.wait 0) = 0)) :=
  ⟨⟨by decide, by decide⟩, C8_start_wait_once [prA] 1 0 (by decide) (by decide)⟩

/-- C9 counterexample: the loop's console output is exactly one summary
line per job, with no aggregate success/failure count after them — here two
jobs produce exactly two lines, not two lines plus an aggregate line as the
claim requires. -/
theorem C9_counterexample :
    loopOutput [prA, prFail] (runPool [prA, prFail] 2).done =
      ["Training of project 'F' generated an exception: boom",
       "Training of project 'A' finished in 2"] ∧
    (loopOutput [prA, prFail] (runPool [prA, prFail] 2).done).length ≠
      ([prA, prFail] : List Project).length + 1 :=
  ⟨rfl, by decide⟩

/-- C9 amended: the user-visible output of a dispatch cycle is exactly one
summary line per job — success with recorded duration or failure with the
error message — emitted in completion order as each result becomes
available (streaming); no aggregate count of successes and failures is
emitted afterwards: the output has exactly `jobs.length` lines. -/
theorem C9_one_line_per_job (jobs : List Project) (W : Nat) (hW : 1 ≤ W) :
    loopOutput jobs (runPool jobs W).done =
      (runPool jobs W).done.map (fun c =>
        reportLine (jobs.getD c.1 default).projectName
          (thread_function (jobs.getD c.1 default) 0 c.2)) ∧
    (loopOutput jobs (runPool jobs W).done).length = jobs.length := by
  constructor
  · show (dispatch jobs W).map (fun r => reportLine r.2.1 r.2.2) = _
    rw [dispatch_eq jobs W hW, List.map_map]
    rfl
  · show ((dispatch jobs W).map (fun r => reportLine r.2.1 r.2.2)).length = _
    rw [List.length_map]
    have h := (dispatch_keys jobs W hW).length_eq
    simpa using h

theorem C9_witness :
    (1 ≤ (2 : Nat)) ∧
    (loopOutput [prA, prFail] (runPool [prA, prFail] 2).done =
      (runPool [prA, prFail] 2).done.map (fun c =>
        reportLine ([prA, prFail].getD c.1 default).projectName
          (thread_function ([prA, prFail].getD c.1 default) 0 c.2)) ∧
     (loopOutput [prA, prFail] (runPool [prA, prFail] 2).done).length =
       ([prA, prFail] : List Project).length) :=
  ⟨by decide, C9_one_line_per_job [prA, prFail] 2 (by decide)⟩

/-- C10: dispatching an empty job sequence completes normally with zero
results and raises no error: the pool is constructed and torn down, no
job's `start()` or `wait()` is ever invoked (empty call trace, nothing ever
picked up), and the collection loop runs zero iterations (empty output). -/
theorem C10_empty_batch (W : Nat) (hW : 1 ≤ W) :
    dispatchChecked ([] : List Project) W = Except.ok [] ∧
    dispatch ([] : List Project) W = [] ∧
    (runPool ([] : List Project) W).started = [] ∧
    dispatchTrace ([] : List Project) W = [] ∧
    loopOutput [] (runPool ([] : List Project) W).done = [] := by
  have hz : W ≠ 0 := by omega
  refine ⟨?_, rfl, rfl, rfl, rfl⟩
  simp only [dispatchChecked, ThreadPoolExecutorNew, if_neg hz]
  rfl

theorem C10_witness :
    (1 ≤ (1 : Nat)) ∧
    (dispatchChecked ([] : List Project) 1 = Except.ok [] ∧
     dispatch ([] : List Project) 1 = [] ∧
     (runPool ([] : List Project) 1).started = [] ∧
     dispatchTrace ([] : List Project) 1 = [] ∧
     loopOutput [] (runPool ([] : List Project) 1).done = []) :=
  ⟨by decide, C10_empty_batch 1 (by decide)⟩

end Claims
